import Mathlib

/-!
Shallow embedding of the sequencing-and-signing core of the
certificate-transparency log (src/cpp/log/tree_signer-inl.h).

Times are modelled as natural numbers of milliseconds; entry hashes,
serialized leaves, root hashes and signatures are modelled as natural
numbers.  External collaborators (the Local Log Store, the Coordination
Store, the signing primitive and the Merkle accumulator) are not under
src/ and are modelled from the spec at their interface boundary; the
functions of `TreeSigner` itself are translated from the source.
-/

namespace CertTrans

/-- Modelled from the spec: a logged entry (the `Logged` template parameter
of `TreeSigner`; its concrete type is not under src/).  It carries an
opaque content hash, a submission (SCT) timestamp in milliseconds, and the
sequence-number field that sequencing fills in. -/
structure LoggedEntry where
  hash : Nat
  timestamp : Nat
  seq : Nat
  deriving DecidableEq, Repr

/-- The source's `pending_entry.MutableEntry()->set_sequence_number(n)`. -/
def setSequenceNumber (e : LoggedEntry) (n : Nat) : LoggedEntry :=
  { e with seq := n }

/-- Modelled from the spec: `Logged::SerializeForLeaf` (not under src/), the
canonical leaf encoding of one entry — a pure function of the entry's
content (hash and timestamp), independent of its sequence number. -/
def serializeForLeaf (e : LoggedEntry) : Nat :=
  Nat.pair e.hash e.timestamp

/-- Modelled from the spec: the incremental Merkle accumulator
(`CompactMerkleTree`, not under src/): an ordered sequence of serialized
leaves; leaves are added strictly in index order. -/
structure MerkleTree where
  leaves : List Nat
  deriving DecidableEq, Repr

/-- Modelled from the spec: `MerkleTree::AddLeaf` appends one leaf. -/
def MerkleTree.AddLeaf (t : MerkleTree) (l : Nat) : MerkleTree :=
  ⟨t.leaves ++ [l]⟩

/-- Modelled from the spec: `MerkleTree::LeafCount`. -/
def MerkleTree.LeafCount (t : MerkleTree) : Nat :=
  t.leaves.length

/-- Modelled from the spec: `MerkleTree::CurrentRoot` — the root is a pure,
deterministic function of the ordered leaf sequence; it is modelled as an
iterated pairing over the leaves. -/
def MerkleTree.CurrentRoot (t : MerkleTree) : Nat :=
  t.leaves.foldl Nat.pair 0

/-- The empty accumulator a fresh `TreeSigner` starts from. -/
def emptyTree : MerkleTree := ⟨[]⟩

/-- Modelled from the spec: `ct::SignedTreeHead` with its signature field. -/
structure SignedTreeHead where
  version : Nat
  sha256_root_hash : Nat
  tree_size : Nat
  timestamp : Nat
  signature : Nat
  deriving DecidableEq, Repr

/-- The fixed `ct::V1` version constant. -/
def ctV1 : Nat := 0

/-- Modelled from the spec: the Local Log Store (`Database`, not under
src/): a durable mapping from sequence index to committed entry, plus the
most recently stored signed tree head. -/
structure Database where
  entries : List (Nat × LoggedEntry)
  storedSth : Option SignedTreeHead
  deriving DecidableEq, Repr

/-- Modelled from the spec: `Database::LookupByIndex` — `none` is the
store's `NOT_FOUND` result. -/
def Database.lookupByIndex (db : Database) (i : Nat) : Option LoggedEntry :=
  match db.entries.find? (fun p => p.1 == i) with
  | some p => some p.2
  | none => none

/-- Whether some entry is committed at index `i`. -/
def Database.hasIndex (db : Database) (i : Nat) : Bool :=
  (db.lookupByIndex i).isSome

/-- Result of `Database::CreateSequencedEntry`. -/
inductive WriteResult where
  | ok (db : Database)
  | seqInUse
  deriving DecidableEq, Repr

/-- Modelled from the spec: `Database::CreateSequencedEntry` — commits the
entry at its own sequence number, reporting
`SEQUENCE_NUMBER_ALREADY_IN_USE` when that index is already taken. -/
def Database.createSequencedEntry (db : Database) (e : LoggedEntry) : WriteResult :=
  if db.hasIndex e.seq then .seqInUse
  else .ok ⟨db.entries ++ [(e.seq, e)], db.storedSth⟩

/-- Loop computing the store's contiguously committed size. -/
def Database.treeSizeLoop (db : Database) : Nat → Nat → Nat
  | 0, n => n
  | fuel + 1, n => if db.hasIndex n then db.treeSizeLoop fuel (n + 1) else n

/-- Modelled from the spec: `Database::TreeSize`, the store's current
committed size — the length of the contiguous committed range from 0. -/
def Database.TreeSize (db : Database) : Nat :=
  db.treeSizeLoop db.entries.length 0

/-- Modelled from the spec: one `ct::SequenceMapping::Mapping` pair of the
cluster-wide mapping: entry hash to assigned sequence number. -/
structure SeqMapping where
  entry_hash : Nat
  sequence_number : Nat
  deriving DecidableEq, Repr

/-- Modelled from the spec: the Coordination Store (`ConsistentStore`, not
under src/), captured as the responses it gives to the four calls one
`SequenceNewEntries` run makes: the allocator, the mapping read, the
pending-entry read, and the mapping write-back (`some code` = failure). -/
structure ConsistentStore where
  nextAvailableSequenceNumber : Except Nat Nat
  sequenceMapping : Except Nat (List SeqMapping)
  pendingEntries : Except Nat (List LoggedEntry)
  updateMappingError : Option Nat
  deriving Repr

/-- The source's `PendingEntriesOrder` comparator: order by timestamp, then
fall back to hash as a final tie-breaker. -/
def PendingEntriesOrder (x y : LoggedEntry) : Bool :=
  if x.timestamp < y.timestamp then true
  else if x.timestamp > y.timestamp then false
  else decide (x.hash < y.hash)

/-- Non-strict form of `PendingEntriesOrder`, used for sorting: `x` may
come before `y` exactly when the comparator does not strictly order `y`
before `x`. -/
def pendingLE (x y : LoggedEntry) : Bool :=
  ! PendingEntriesOrder y x

/-- Insertion into a list sorted by `pendingLE`. -/
def insertPending (a : LoggedEntry) : List LoggedEntry → List LoggedEntry
  | [] => [a]
  | b :: t => if pendingLE a b then a :: b :: t else b :: insertPending a t

/-- The source's `std::sort(pending_entries, PendingEntriesOrder())`. -/
def sortPending (xs : List LoggedEntry) : List LoggedEntry :=
  xs.foldr insertPending []

/-- The `sequenced_hashes` lookup: first mapping pair carrying this hash. -/
def findSequenced (m : List SeqMapping) (h : Nat) : Option Nat :=
  match m.find? (fun x => x.entry_hash == h) with
  | some x => some x.sequence_number
  | none => none

/-- Pairwise distinctness of a key list, as checked by the source's
`CHECK(sequenced_hashes.insert(...).second)` while building the lookup. -/
def nodupKeysB : List Nat → Bool
  | [] => true
  | a :: t => (! t.contains a) && nodupKeysB t

/-- State threaded through the sequencing loop of `SequenceNewEntries`:
the (growing) mapping, the next free number, the `seq_to_entry` map (kept
as the association list in insertion order; its keys are distinct), and
the `num_sequenced` counter. -/
structure SeqState where
  mapping : List SeqMapping
  next : Nat
  seqToEntry : List (Nat × LoggedEntry)
  numSequenced : Nat
  deriving DecidableEq, Repr

/-- The source's `CHECK(seq_to_entry.insert(...).second)`: insertion fails
fatally on a duplicate sequence-number key. -/
def insertSeqToEntry (st : SeqState) (e : LoggedEntry) : Option SeqState :=
  if st.seqToEntry.any (fun p => p.1 == e.seq) then none
  else some { st with seqToEntry := st.seqToEntry ++ [(e.seq, e)] }

/-- The guard-window test `now - cert_time < guard_window_` (in `Int`, so
an entry with a submission timestamp in the future is also "too recent"
whenever the guard window is positive or zero... matching the signed
duration comparison of the source). -/
def tooRecent (now guard : Nat) (e : LoggedEntry) : Bool :=
  decide ((now : Int) - (e.timestamp : Int) < (guard : Int))

/-- One iteration of the sequencing loop over one pending entry: skip it
when inside the guard window; otherwise adopt its previously assigned
number from `sequencedHashes`, or claim the next free number and record
the new mapping pair; in both cases insert into `seq_to_entry`. -/
def stepPending (now guard : Nat) (sequencedHashes : List SeqMapping)
    (st : SeqState) (e : LoggedEntry) : Option SeqState :=
  if tooRecent now guard e then some st
  else
    match findSequenced sequencedHashes e.hash with
    | none =>
      insertSeqToEntry
        { st with
          mapping := st.mapping ++ [⟨e.hash, st.next⟩],
          next := st.next + 1,
          numSequenced := st.numSequenced + 1 }
        (setSequenceNumber e st.next)
    | some s => insertSeqToEntry st (setSequenceNumber e s)

/-- The sequencing loop of `SequenceNewEntries` over the sorted pending
entries.  `none` is a fatal `CHECK` failure. -/
def processPending (now guard : Nat) (sequencedHashes : List SeqMapping) :
    SeqState → List LoggedEntry → Option SeqState
  | st, [] => some st
  | st, e :: rest =>
    match stepPending now guard sequencedHashes st e with
    | none => none
    | some st' => processPending now guard sequencedHashes st' rest

/-- Insertion into an association list sorted by key. -/
def insertByKey (p : Nat × LoggedEntry) :
    List (Nat × LoggedEntry) → List (Nat × LoggedEntry)
  | [] => [p]
  | q :: t => if p.1 ≤ q.1 then p :: q :: t else q :: insertByKey p t

/-- The key-ascending iteration order of the `std::map` `seq_to_entry`. -/
def sortByKey (xs : List (Nat × LoggedEntry)) : List (Nat × LoggedEntry) :=
  xs.foldr insertByKey []

/-- The commit walk `for (it = seq_to_entry.find(db_->TreeSize()); it !=
end; ++it)`: when the store's current size is among the keys, every pair
with key at or above it, in ascending key order; otherwise nothing. -/
def commitFrom (ts : Nat) (xs : List (Nat × LoggedEntry)) :
    List (Nat × LoggedEntry) :=
  if xs.any (fun p => p.1 == ts) then (sortByKey xs).filter (fun p => ts ≤ p.1)
  else []

/-- The commit loop body: `CHECK_EQ(it->first, it->second->sequence_number())`
then `CHECK_EQ(OK, db_->CreateSequencedEntry(...))`; `none` is a fatal
`CHECK` failure. -/
def commitEntries (db : Database) : List (Nat × LoggedEntry) → Option Database
  | [] => some db
  | (k, e) :: rest =>
    if k = e.seq then
      match db.createSequencedEntry e with
      | .ok db' => commitEntries db' rest
      | .seqInUse => none
    else none

/-- Outcome of one `SequenceNewEntries` call: success (with the updated
mapping and the `seq_to_entry` assignment), a status error returned to the
caller, or a fatal `CHECK` failure (process death). -/
inductive SeqResult where
  | ok (mapping : List SeqMapping) (assignment : List (Nat × LoggedEntry))
  | err (code : Nat)
  | fatal
  deriving DecidableEq, Repr

/-- `TreeSigner::SequenceNewEntries`, returning the outcome together with
the resulting Local Log Store state. -/
def SequenceNewEntries (now guard : Nat) (cs : ConsistentStore) (db : Database) :
    SeqResult × Database :=
  match cs.nextAvailableSequenceNumber with
  | .error s => (.err s, db)
  | .ok n =>
    match cs.sequenceMapping with
    | .error s => (.err s, db)
    | .ok M =>
      if nodupKeysB (M.map SeqMapping.entry_hash) then
        match cs.pendingEntries with
        | .error s => (.err s, db)
        | .ok P =>
          match processPending now guard M ⟨M, n, [], 0⟩ (sortPending P) with
          | none => (.fatal, db)
          | some st =>
            match cs.updateMappingError with
            | some s => (.err s, db)
            | none =>
              match commitEntries db (commitFrom db.TreeSize st.seqToEntry) with
              | none => (.fatal, db)
              | some db' => (.ok st.mapping st.seqToEntry, db')
      else (.fatal, db)

/-- `TreeSigner::AppendToTree`: serialize the entry and add the leaf to
the in-memory accumulator. -/
def AppendToTree (tree : MerkleTree) (logged : LoggedEntry) : MerkleTree :=
  tree.AddLeaf (serializeForLeaf logged)

/-- The replay loop shared by `UpdateTree` and the tail of `BuildTree`:
look up successive indices until `NOT_FOUND`, `CHECK` that each found
entry records its own index, append it to the tree, and track the maximum
submission timestamp seen.  `none` is a fatal `CHECK` failure; the fuel is
always at least the store's entry count plus one, so it never runs out
before the first missing index. -/
def replayFrom (db : Database) : Nat → MerkleTree → Nat → Nat →
    Option (MerkleTree × Nat)
  | 0, tree, acc, _ => some (tree, acc)
  | fuel + 1, tree, acc, i =>
    match db.lookupByIndex i with
    | none => some (tree, acc)
    | some logged =>
      if logged.seq = i then
        replayFrom db fuel (AppendToTree tree logged) (max acc logged.timestamp) (i + 1)
      else none

/-- `TreeSigner::TimestampAndSign`: build the head from the accumulator's
current root and leaf count with timestamp `max(now, min_timestamp)`, then
sign it; `none` models the `abort()` on a signing failure. -/
def TimestampAndSign (now minTimestamp : Nat)
    (sign : Nat → Nat → Nat → Nat → Option Nat) (tree : MerkleTree) :
    Option SignedTreeHead :=
  match sign ctV1 tree.CurrentRoot tree.LeafCount
      (if now < minTimestamp then minTimestamp else now) with
  | none => none
  | some sig =>
    some ⟨ctV1, tree.CurrentRoot, tree.LeafCount,
      if now < minTimestamp then minTimestamp else now, sig⟩

/-- `TreeSigner::LastUpdateTime`: the latest head's timestamp. -/
def LastUpdateTime (latest : SignedTreeHead) : Nat :=
  latest.timestamp

/-- `TreeSigner::UpdateTree`: replay every committed entry from the current
leaf count on, then timestamp-and-sign a fresh head with floor
`LastUpdateTime() + 1` raised by the replayed entries' timestamps.  The
returned pair is the updated accumulator and the new latest head; `none`
is a fatal `CHECK` failure or signing failure. -/
def UpdateTree (now : Nat) (sign : Nat → Nat → Nat → Nat → Option Nat)
    (db : Database) (tree : MerkleTree) (latest : SignedTreeHead) :
    Option (MerkleTree × SignedTreeHead) :=
  match replayFrom db (db.entries.length + 1) tree (LastUpdateTime latest + 1)
      tree.LeafCount with
  | none => none
  | some (tree', minTs) =>
    match TimestampAndSign now minTs sign tree' with
    | none => none
    | some sth => some (tree', sth)

/-- The bounded replay of `BuildTree`'s first loop, over exactly the stored
tree size: each index must be present (`CHECK_EQ(LOOKUP_OK, ...)`), must
record its own index, and must carry a timestamp at most the stored head's
timestamp.  `none` is a fatal `CHECK` failure. -/
def replayExact (db : Database) (sthTs : Nat) : Nat → MerkleTree → Nat →
    Option MerkleTree
  | 0, tree, _ => some tree
  | count + 1, tree, i =>
    match db.lookupByIndex i with
    | none => none
    | some logged =>
      if logged.timestamp ≤ sthTs ∧ logged.seq = i then
        replayExact db sthTs count (AppendToTree tree logged) (i + 1)
      else none

/-- `TreeSigner::BuildTree` (construction-time recovery): read the stored
head (absent: start empty), reject a future timestamp, replay exactly the
stored tree size, check the replayed root against the stored root, then
admit every further committed entry up to the first missing index.  The
result is the rebuilt accumulator and the head it adopts as latest (`none`
inside: the store had no head); an overall `none` is a fatal `CHECK`
failure. -/
def BuildTree (now : Nat) (db : Database) :
    Option (MerkleTree × Option SignedTreeHead) :=
  match db.storedSth with
  | none => some (emptyTree, none)
  | some sth =>
    if sth.timestamp ≤ now then
      match replayExact db sth.timestamp sth.tree_size emptyTree 0 with
      | none => none
      | some tree =>
        if tree.CurrentRoot = sth.sha256_root_hash then
          match replayFrom db (db.entries.length + 1) tree 0 sth.tree_size with
          | none => none
          | some (tree', _) => some (tree', some sth)
        else none
    else none

/-- `TreeSigner::Append`: `CHECK` the entry's own sequence number equals
the accumulator's leaf count, commit it to the store, report `false`
without touching the tree on a duplicate-sequence-number conflict, and
append the leaf on success.  `none` is the fatal `CHECK` failure. -/
def Append (db : Database) (tree : MerkleTree) (e : LoggedEntry) :
    Option (Bool × Database × MerkleTree) :=
  if e.seq = tree.LeafCount then
    match db.createSequencedEntry e with
    | .seqInUse => some (false, db, tree)
    | .ok db' => some (true, db', tree.AddLeaf (serializeForLeaf e))
  else none

/-! ### Concrete instances used by the witness and counterexample theorems -/

/-- An empty Local Log Store. -/
def emptyDb : Database := ⟨[], none⟩

/-- A signer that always succeeds. -/
def signSome : Nat → Nat → Nat → Nat → Option Nat := fun _ _ _ _ => some 0

/-- A signer that always fails. -/
def signNone : Nat → Nat → Nat → Nat → Option Nat := fun _ _ _ _ => none

/-- A store already holding index 0 (current size 1). -/
def C1db : Database := ⟨[(0, ⟨1, 0, 0⟩)], none⟩

/-- Coordination-store responses whose mapping carries sequence numbers 1
and 3 for two old pending entries, leaving number 2 to an entry that is no
longer pending. -/
def C1cs : ConsistentStore :=
  ⟨.ok 4, .ok [⟨10, 1⟩, ⟨11, 3⟩], .ok [⟨10, 0, 0⟩, ⟨11, 0, 0⟩], none⟩

/-- Coordination-store responses with one fresh old-enough pending entry. -/
def W1cs : ConsistentStore := ⟨.ok 0, .ok [], .ok [⟨1, 0, 0⟩], none⟩

/-- Coordination-store responses whose mapping already assigns number 5 to
the hash of the single pending entry. -/
def W2cs : ConsistentStore := ⟨.ok 6, .ok [⟨9, 5⟩], .ok [⟨9, 0, 0⟩], none⟩

/-- An entry whose submission timestamp exceeds the stored head's. -/
def C3entry : LoggedEntry := ⟨5, 200, 0⟩

/-- A stored head of size 1 whose root matches the replay of `C3entry`
but whose timestamp (100) is below the entry's own (200). -/
def C3sth : SignedTreeHead :=
  ⟨0, MerkleTree.CurrentRoot ⟨[serializeForLeaf C3entry]⟩, 1, 100, 0⟩

/-- The store for the C3 counterexample. -/
def C3db : Database := ⟨[(0, C3entry)], some C3sth⟩

/-- The entry covered by the stored head in the C3 witness. -/
def W3L0 : LoggedEntry := ⟨5, 50, 0⟩

/-- The extra committed-but-unsigned entry in the C3 witness. -/
def W3K0 : LoggedEntry := ⟨6, 120, 1⟩

/-- Stored head of size 1 matching the replay of `W3L0`. -/
def W3sth : SignedTreeHead :=
  ⟨0, MerkleTree.CurrentRoot ⟨[serializeForLeaf W3L0]⟩, 1, 100, 0⟩

/-- Store holding indices 0 and 1 with a stored head of size 1. -/
def W3db : Database := ⟨[(0, W3L0), (1, W3K0)], some W3sth⟩

/-- The single entry replayed by the C4 witness. -/
def W4entry : LoggedEntry := ⟨3, 40, 0⟩

/-- Store holding exactly `W4entry` at index 0. -/
def W4db : Database := ⟨[(0, W4entry)], none⟩

/-- Previous head for the C4 witness, with timestamp 50. -/
def W4latest : SignedTreeHead := ⟨0, 0, 0, 50, 0⟩

/-- A pending entry 5 ms old at time 100 (inside a guard window of 10). -/
def W5young : LoggedEntry := ⟨1, 95, 0⟩

/-- A pending entry 50 ms old at time 100 (outside a guard window of 10). -/
def W5old : LoggedEntry := ⟨2, 50, 0⟩

/-- Coordination-store responses with one too-recent and one old-enough
pending entry. -/
def W5cs : ConsistentStore := ⟨.ok 0, .ok [], .ok [W5young, W5old], none⟩

/-- Coordination-store responses where every pending entry is too recent. -/
def W5cs2 : ConsistentStore := ⟨.ok 0, .ok [], .ok [W5young], none⟩

/-- Allocator failure with code 7. -/
def W6a : ConsistentStore := ⟨.error 7, .ok [], .ok [], none⟩

/-- Mapping-read failure with code 7. -/
def W6b : ConsistentStore := ⟨.ok 0, .error 7, .ok [], none⟩

/-- Pending-read failure with code 7. -/
def W6c : ConsistentStore := ⟨.ok 0, .ok [], .error 7, none⟩

/-- Mapping write-back failure with code 7. -/
def W6d : ConsistentStore := ⟨.ok 0, .ok [], .ok [], some 7⟩

/-- The scenario store of C7: pending hashes 1 (at t=100) and 2 (at t=50). -/
def C7cs : ConsistentStore :=
  ⟨.ok 0, .ok [], .ok [⟨1, 100, 0⟩, ⟨2, 50, 0⟩], none⟩

/-- The already-ordered entry appended in the C8 witness. -/
def W8entry : LoggedEntry := ⟨4, 9, 0⟩

/-- A store whose index 0 is already taken. -/
def W8db : Database := ⟨[(0, ⟨4, 9, 0⟩)], none⟩

/-- A three-leaf accumulator. -/
def C10tree : MerkleTree := ⟨[7, 8, 9]⟩

/-- A previous head whose size (2) and root (999) differ from the
three-leaf accumulator's. -/
def C10latest : SignedTreeHead := ⟨0, 999, 2, 50, 0⟩

/-! ### Lemmas about the pending-entry ordering and sorting -/

theorem pendingLE_iff (x y : LoggedEntry) :
    pendingLE x y = true ↔
      (x.timestamp < y.timestamp ∨
        (x.timestamp = y.timestamp ∧ x.hash ≤ y.hash)) := by
  unfold pendingLE PendingEntriesOrder
  split_ifs with h1 h2 <;> simp <;> omega

theorem pendingLE_total (x y : LoggedEntry) :
    pendingLE x y = true ∨ pendingLE y x = true := by
  rw [pendingLE_iff, pendingLE_iff]
  omega

theorem pendingLE_trans (x y z : LoggedEntry) (h1 : pendingLE x y = true)
    (h2 : pendingLE y z = true) : pendingLE x z = true := by
  rw [pendingLE_iff] at h1 h2 ⊢
  omega

theorem insertPending_perm (a : LoggedEntry) (l : List LoggedEntry) :
    List.Perm (insertPending a l) (a :: l) := by
  induction l with
  | nil => exact List.Perm.refl _
  | cons b t ih =>
    unfold insertPending
    split
    · exact List.Perm.refl _
    · exact List.Perm.trans (List.Perm.cons b ih) (List.Perm.swap a b t)

theorem sortPending_perm (l : List LoggedEntry) :
    List.Perm (sortPending l) l := by
  induction l with
  | nil => exact List.Perm.refl _
  | cons a t ih =>
    exact List.Perm.trans (insertPending_perm a (sortPending t)) (List.Perm.cons a ih)

theorem pairwise_insertPending (a : LoggedEntry) (l : List LoggedEntry)
    (h : l.Pairwise fun x y => pendingLE x y = true) :
    (insertPending a l).Pairwise fun x y => pendingLE x y = true := by
  induction l with
  | nil => simp [insertPending]
  | cons b t ih =>
    rcases List.pairwise_cons.mp h with ⟨hb, ht⟩
    unfold insertPending
    split
    case isTrue hab =>
      refine List.pairwise_cons.mpr ⟨?_, h⟩
      intro x hx
      rcases List.mem_cons.mp hx with rfl | hx'
      · exact hab
      · exact pendingLE_trans _ _ _ hab (hb x hx')
    case isFalse hab =>
      refine List.pairwise_cons.mpr ⟨?_, ih ht⟩
      intro x hx
      rcases List.mem_cons.mp ((insertPending_perm a t).mem_iff.mp hx) with hxa | hx'
      · subst hxa
        rcases pendingLE_total x b with hc | hc
        · exact absurd hc hab
        · exact hc
      · exact hb x hx'

theorem sortPending_pairwise (l : List LoggedEntry) :
    (sortPending l).Pairwise fun x y => pendingLE x y = true := by
  induction l with
  | nil => simp [sortPending]
  | cons a t ih => exact pairwise_insertPending a (sortPending t) ih

/-! ### Lemmas about the commit phase -/

theorem insertByKey_perm (p : Nat × LoggedEntry) (l : List (Nat × LoggedEntry)) :
    List.Perm (insertByKey p l) (p :: l) := by
  induction l with
  | nil => exact List.Perm.refl _
  | cons q t ih =>
    unfold insertByKey
    split
    · exact List.Perm.refl _
    · exact List.Perm.trans (List.Perm.cons q ih) (List.Perm.swap p q t)

theorem sortByKey_perm (l : List (Nat × LoggedEntry)) :
    List.Perm (sortByKey l) l := by
  induction l with
  | nil => exact List.Perm.refl _
  | cons q t ih =>
    exact List.Perm.trans (insertByKey_perm q (sortByKey t)) (List.Perm.cons q ih)

theorem commitFrom_sub (ts : Nat) (xs : List (Nat × LoggedEntry))
    (p : Nat × LoggedEntry) (h : p ∈ commitFrom ts xs) : p ∈ xs ∧ ts ≤ p.1 := by
  unfold commitFrom at h
  split at h
  · have h' := List.mem_filter.mp h
    exact ⟨(sortByKey_perm xs).mem_iff.mp h'.1, by simpa using h'.2⟩
  · cases h

theorem commitFrom_mem_of (ts : Nat) (xs : List (Nat × LoggedEntry))
    (p : Nat × LoggedEntry) (hts : xs.any (fun q => q.1 == ts) = true)
    (hp : p ∈ xs) (hge : ts ≤ p.1) : p ∈ commitFrom ts xs := by
  unfold commitFrom
  rw [hts]
  simp only [if_true]
  exact List.mem_filter.mpr ⟨(sortByKey_perm xs).mem_iff.mpr hp, by simpa using hge⟩

theorem commitEntries_app (l : List (Nat × LoggedEntry)) :
    ∀ db db', commitEntries db l = some db' →
      db'.entries = db.entries ++ l ∧ db'.storedSth = db.storedSth := by
  induction l with
  | nil =>
    intro db db' h
    cases h
    simp
  | cons p t ih =>
    intro db db' h
    obtain ⟨k, e⟩ := p
    unfold commitEntries at h
    split at h
    case isTrue hk =>
      by_cases hidx : db.hasIndex e.seq
      · simp [Database.createSequencedEntry, hidx] at h
      · simp only [Database.createSequencedEntry, hidx, if_neg, Bool.false_eq_true,
          not_false_eq_true, if_false] at h
        have h2 := ih _ _ h
        refine ⟨?_, h2.2⟩
        rw [h2.1]
        simp [hk]
    case isFalse => cases h

theorem hasIndex_eq_any (db : Database) (i : Nat) :
    db.hasIndex i = db.entries.any (fun p => p.1 == i) := by
  unfold Database.hasIndex Database.lookupByIndex
  cases hf : db.entries.find? (fun p => p.1 == i) with
  | some p =>
    show (some p.2).isSome = db.entries.any (fun p => p.1 == i)
    exact ((List.any_eq_true.mpr
      ⟨p, List.mem_of_find?_eq_some hf, List.find?_some hf⟩).symm : _)
  | none =>
    show (Option.none).isSome = db.entries.any (fun p => p.1 == i)
    cases hval : db.entries.any (fun p => p.1 == i) with
    | false => rfl
    | true =>
      obtain ⟨q, hqm, hq⟩ := List.any_eq_true.mp hval
      have h3 : (db.entries.find? (fun p => p.1 == i)).isSome :=
        List.find?_isSome.mpr ⟨q, hqm, hq⟩
      rw [hf] at h3
      cases h3

/-! ### Lemmas about the sequencing loop -/

theorem setSequenceNumber_inj (e1 e2 : LoggedEntry) (k : Nat)
    (h : setSequenceNumber e1 k = setSequenceNumber e2 k) :
    e1.hash = e2.hash ∧ e1.timestamp = e2.timestamp := by
  unfold setSequenceNumber at h
  cases e1
  cases e2
  simp_all

theorem tooRecent_congr (now guard : Nat) (e1 e2 : LoggedEntry)
    (h : e1.timestamp = e2.timestamp) :
    tooRecent now guard e1 = tooRecent now guard e2 := by
  unfold tooRecent
  rw [h]

theorem insertSeqToEntry_some (st st' : SeqState) (e : LoggedEntry)
    (h : insertSeqToEntry st e = some st') :
    st'.seqToEntry = st.seqToEntry ++ [(e.seq, e)] ∧
      st'.mapping = st.mapping ∧ st'.next = st.next ∧
      st.seqToEntry.any (fun p => p.1 == e.seq) = false := by
  unfold insertSeqToEntry at h
  split at h
  · cases h
  case isFalse hdup =>
    cases h
    refine ⟨rfl, rfl, rfl, ?_⟩
    simp only [Bool.not_eq_true] at hdup
    exact hdup

theorem stepPending_cases (now guard : Nat) (sh : List SeqMapping)
    (st st' : SeqState) (e : LoggedEntry)
    (h : stepPending now guard sh st e = some st') :
    (tooRecent now guard e = true ∧ st' = st) ∨
      (tooRecent now guard e = false ∧ ∃ k,
        ((findSequenced sh e.hash = none ∧ k = st.next) ∨
          findSequenced sh e.hash = some k) ∧
        st'.seqToEntry = st.seqToEntry ++ [(k, setSequenceNumber e k)]) := by
  unfold stepPending at h
  split at h
  case isTrue hrec =>
    cases h
    exact Or.inl ⟨hrec, rfl⟩
  case isFalse hrec =>
    refine Or.inr ⟨by simpa using hrec, ?_⟩
    cases hfind : findSequenced sh e.hash with
    | none =>
      rw [hfind] at h
      have h2 := insertSeqToEntry_some _ _ _ h
      refine ⟨st.next, Or.inl ⟨rfl, rfl⟩, ?_⟩
      simpa [setSequenceNumber] using h2.1
    | some s =>
      rw [hfind] at h
      have h2 := insertSeqToEntry_some _ _ _ h
      refine ⟨s, Or.inr rfl, ?_⟩
      simpa [setSequenceNumber] using h2.1

theorem stepPending_mono (now guard : Nat) (sh : List SeqMapping)
    (st st' : SeqState) (e : LoggedEntry)
    (h : stepPending now guard sh st e = some st') :
    ∀ p ∈ st.seqToEntry, p ∈ st'.seqToEntry := by
  intro p hp
  rcases stepPending_cases now guard sh st st' e h with ⟨_, rfl⟩ | ⟨_, k, _, heq⟩
  · exact hp
  · rw [heq]
    exact List.mem_append_left _ hp

theorem processPending_mono (now guard : Nat) (sh : List SeqMapping) :
    ∀ (l : List LoggedEntry) (st st' : SeqState),
      processPending now guard sh st l = some st' →
      ∀ p ∈ st.seqToEntry, p ∈ st'.seqToEntry := by
  intro l
  induction l with
  | nil =>
    intro st st' h p hp
    cases h
    exact hp
  | cons e t ih =>
    intro st st' h p hp
    unfold processPending at h
    cases hstep : stepPending now guard sh st e with
    | none => rw [hstep] at h; cases h
    | some st1 =>
      rw [hstep] at h
      exact ih st1 st' h p (stepPending_mono now guard sh st st1 e hstep p hp)

theorem processPending_hash_key (now guard : Nat) (sh : List SeqMapping)
    (H S : Nat) (hfind : findSequenced sh H = some S) :
    ∀ (l : List LoggedEntry) (st st' : SeqState),
      processPending now guard sh st l = some st' →
      (∀ p ∈ st.seqToEntry, (p.2).hash = H → p.1 = S) →
      ∀ p ∈ st'.seqToEntry, (p.2).hash = H → p.1 = S := by
  intro l
  induction l with
  | nil =>
    intro st st' h hinv
    cases h
    exact hinv
  | cons e t ih =>
    intro st st' h hinv
    unfold processPending at h
    cases hstep : stepPending now guard sh st e with
    | none => rw [hstep] at h; cases h
    | some st1 =>
      rw [hstep] at h
      refine ih st1 st' h ?_
      rcases stepPending_cases now guard sh st st1 e hstep with ⟨_, rfl⟩ | ⟨_, k, hk, heq⟩
      · exact hinv
      · intro p hp hph
        rw [heq] at hp
        rcases List.mem_append.mp hp with hp' | hp'
        · exact hinv p hp' hph
        · have hpe : p = (k, setSequenceNumber e k) := by simpa using hp'
          subst hpe
          have hhash : e.hash = H := by simpa [setSequenceNumber] using hph
          rcases hk with ⟨hnone, _⟩ | hsome
          · rw [hhash] at hnone
            rw [hnone] at hfind
            cases hfind
          · rw [hhash] at hsome
            rw [hsome] at hfind
            simpa using hfind

theorem processPending_assigns (now guard : Nat) (sh : List SeqMapping) :
    ∀ (l : List LoggedEntry) (st st' : SeqState),
      processPending now guard sh st l = some st' →
      ∀ e ∈ l, tooRecent now guard e = false →
      ∃ k, (k, setSequenceNumber e k) ∈ st'.seqToEntry ∧
        (∀ s, findSequenced sh e.hash = some s → k = s) := by
  intro l
  induction l with
  | nil =>
    intro st st' _ e he
    cases he
  | cons e0 t ih =>
    intro st st' h e he hrec
    unfold processPending at h
    cases hstep : stepPending now guard sh st e0 with
    | none => rw [hstep] at h; cases h
    | some st1 =>
      rw [hstep] at h
      rcases List.mem_cons.mp he with hee | het
      · subst hee
        rcases stepPending_cases now guard sh st st1 e hstep with ⟨hr, _⟩ | ⟨_, k, hk, heq⟩
        · rw [hr] at hrec
          cases hrec
        · refine ⟨k, processPending_mono now guard sh t st1 st' h _ ?_, ?_⟩
          · rw [heq]
            exact List.mem_append_right _ (by simp)
          · intro s hs
            rcases hk with ⟨hnone, _⟩ | hsome
            · rw [hnone] at hs
              cases hs
            · rw [hsome] at hs
              simpa using hs
      · exact ih st1 st' h e het hrec

theorem processPending_guarded (now guard : Nat) (sh : List SeqMapping)
    (e : LoggedEntry) (hrec : tooRecent now guard e = true) :
    ∀ (l : List LoggedEntry) (st st' : SeqState),
      processPending now guard sh st l = some st' →
      (∀ k, (k, setSequenceNumber e k) ∉ st.seqToEntry) →
      ∀ k, (k, setSequenceNumber e k) ∉ st'.seqToEntry := by
  intro l
  induction l with
  | nil =>
    intro st st' h hinv
    cases h
    exact hinv
  | cons e0 t ih =>
    intro st st' h hinv
    unfold processPending at h
    cases hstep : stepPending now guard sh st e0 with
    | none => rw [hstep] at h; cases h
    | some st1 =>
      rw [hstep] at h
      refine ih st1 st' h ?_
      rcases stepPending_cases now guard sh st st1 e0 hstep with ⟨_, rfl⟩ | ⟨hr0, k0, _, heq⟩
      · exact hinv
      · intro k hk
        rw [heq] at hk
        rcases List.mem_append.mp hk with hk' | hk'
        · exact hinv k hk'
        · have hpe : k = k0 ∧ setSequenceNumber e k = setSequenceNumber e0 k0 := by
            simpa using hk'
          obtain ⟨rfl, hset⟩ := hpe
          have hts := (setSequenceNumber_inj e e0 k hset).2
          rw [tooRecent_congr now guard e e0 hts] at hrec
          rw [hrec] at hr0
          cases hr0

theorem processPending_all_guarded (now guard : Nat) (sh : List SeqMapping) :
    ∀ (l : List LoggedEntry) (st : SeqState),
      (∀ e ∈ l, tooRecent now guard e = true) →
      processPending now guard sh st l = some st := by
  intro l
  induction l with
  | nil => intro st _; rfl
  | cons e t ih =>
    intro st hall
    unfold processPending stepPending
    rw [hall e (by simp)]
    exact ih st fun e' he' => hall e' (List.mem_cons_of_mem e he')

/-! ### Inversion of a successful SequenceNewEntries call -/

theorem seqOk_inv (now guard : Nat) (cs : ConsistentStore) (db db' : Database)
    (m' : List SeqMapping) (a : List (Nat × LoggedEntry))
    (h : SequenceNewEntries now guard cs db = (.ok m' a, db')) :
    ∃ n M P st,
      cs.nextAvailableSequenceNumber = .ok n ∧
      cs.sequenceMapping = .ok M ∧
      nodupKeysB (M.map SeqMapping.entry_hash) = true ∧
      cs.pendingEntries = .ok P ∧
      processPending now guard M ⟨M, n, [], 0⟩ (sortPending P) = some st ∧
      cs.updateMappingError = none ∧
      commitEntries db (commitFrom db.TreeSize st.seqToEntry) = some db' ∧
      m' = st.mapping ∧ a = st.seqToEntry := by
  unfold SequenceNewEntries at h
  split at h
  · simp at h
  · split at h
    · simp at h
    · split at h
      · split at h
        · simp at h
        · split at h
          · simp at h
          · split at h
            · simp at h
            · split at h
              · simp at h
              · rename_i x1 n heq1 x2 M heq2 hnodup x3 P heq3 x4 st heq4 x5 heq5 x6 db1 heq6
                injection h with hre hdb
                injection hre with hm ha
                exact ⟨n, M, P, st, heq1, heq2, hnodup, heq3, heq4, heq5,
                  by rw [heq6, hdb], hm.symm, ha.symm⟩
      · simp at h

theorem findSequenced_of_mem (M : List SeqMapping) (H S : Nat)
    (hnd : nodupKeysB (M.map SeqMapping.entry_hash) = true)
    (hmem : (⟨H, S⟩ : SeqMapping) ∈ M) : findSequenced M H = some S := by
  induction M with
  | nil => cases hmem
  | cons q t ih =>
    have hnd' : ((t.map SeqMapping.entry_hash).contains q.entry_hash = false) ∧
        nodupKeysB (t.map SeqMapping.entry_hash) = true := by
      simp only [List.map_cons, nodupKeysB, Bool.and_eq_true, Bool.not_eq_true'] at hnd
      exact hnd
    by_cases hq : q.entry_hash = H
    · have hqm : q = ⟨H, S⟩ := by
        rcases List.mem_cons.mp hmem with h' | h'
        · exact h'.symm
        · exfalso
          have hmap : H ∈ t.map SeqMapping.entry_hash :=
            List.mem_map_of_mem SeqMapping.entry_hash h'
          have hc := hnd'.1
          rw [hq, List.contains_eq_any_beq] at hc
          have hany : (t.map SeqMapping.entry_hash).any (fun x => H == x) = true :=
            List.any_eq_true.mpr ⟨H, hmap, by simp⟩
          rw [hany] at hc
          cases hc
      subst hqm
      unfold findSequenced
      rw [List.find?_cons_of_pos _ (by simp)]
    · have hmem' : (⟨H, S⟩ : SeqMapping) ∈ t := by
        rcases List.mem_cons.mp hmem with h' | h'
        · exfalso; apply hq; rw [← h']
        · exact h'
      have hrec := ih hnd'.2 hmem'
      unfold findSequenced at hrec ⊢
      rw [List.find?_cons_of_neg _ (by simpa using hq)]
      exact hrec

/-! ### Lemmas about the replay loops -/

theorem replayFrom_acc_le (db : Database) :
    ∀ (fuel : Nat) (tree : MerkleTree) (acc i : Nat) (t' : MerkleTree) (acc' : Nat),
      replayFrom db fuel tree acc i = some (t', acc') → acc ≤ acc' := by
  intro fuel
  induction fuel with
  | zero =>
    intro tree acc i t' acc' h
    cases h
    exact Nat.le_refl _
  | succ n ih =>
    intro tree acc i t' acc' h
    unfold replayFrom at h
    split at h
    · cases h
      exact Nat.le_refl _
    · split at h
      · exact Nat.le_trans (Nat.le_max_left _ _) (ih _ _ _ _ _ h)
      · cases h

theorem replayFrom_spec (db : Database) (K : List LoggedEntry) :
    ∀ (i : Nat) (tree : MerkleTree) (acc fuel : Nat),
      (∀ j (hj : j < K.length), db.lookupByIndex (i + j) = some (K.get ⟨j, hj⟩)) →
      (∀ j (hj : j < K.length), (K.get ⟨j, hj⟩).seq = i + j) →
      db.lookupByIndex (i + K.length) = none →
      K.length < fuel →
      replayFrom db fuel tree acc i =
        some (⟨tree.leaves ++ K.map serializeForLeaf⟩,
          (K.map LoggedEntry.timestamp).foldl max acc) := by
  induction K with
  | nil =>
    intro i tree acc fuel _ _ hnone hfuel
    have hnone' : db.lookupByIndex i = none := by simpa using hnone
    cases fuel with
    | zero => simp at hfuel
    | succ n =>
      cases tree
      simp [replayFrom, hnone']
  | cons e t ih =>
    intro i tree acc fuel hlook hseq hnone hfuel
    cases fuel with
    | zero => simp at hfuel
    | succ n =>
      have h0 : db.lookupByIndex i = some e := by
        have hx := hlook 0 (by simp)
        simpa using hx
      have hs0 : e.seq = i := by
        have hx := hseq 0 (by simp)
        simpa using hx
      have hstep := ih (i + 1) (AppendToTree tree e) (max acc e.timestamp) n
        (fun j hj => by
          have hx := hlook (j + 1) (by simp only [List.length_cons]; omega)
          rw [show i + (j + 1) = i + 1 + j by omega] at hx
          simpa using hx)
        (fun j hj => by
          have hx := hseq (j + 1) (by simp only [List.length_cons]; omega)
          rw [show i + (j + 1) = i + 1 + j by omega] at hx
          simpa using hx)
        (by
          have harith : i + 1 + t.length = i + (e :: t).length := by
            simp only [List.length_cons]
            omega
          rw [harith]
          exact hnone)
        (by simp only [List.length_cons] at hfuel; omega)
      have hred : replayFrom db (n + 1) tree acc i
          = replayFrom db n (AppendToTree tree e) (max acc e.timestamp) (i + 1) := by
        simp [replayFrom, h0, hs0]
      rw [hred, hstep]
      simp [AppendToTree, MerkleTree.AddLeaf]

theorem replayExact_spec (db : Database) (T : Nat) (L : List LoggedEntry) :
    ∀ (i : Nat) (tree : MerkleTree),
      (∀ j (hj : j < L.length), db.lookupByIndex (i + j) = some (L.get ⟨j, hj⟩)) →
      (∀ j (hj : j < L.length), (L.get ⟨j, hj⟩).seq = i + j) →
      (∀ e ∈ L, e.timestamp ≤ T) →
      replayExact db T L.length tree i =
        some ⟨tree.leaves ++ L.map serializeForLeaf⟩ := by
  induction L with
  | nil =>
    intro i tree _ _ _
    cases tree
    show replayExact db T 0 _ i = _
    simp [replayExact]
  | cons e t ih =>
    intro i tree hlook hseq hts
    have h0 : db.lookupByIndex i = some e := by
      have hx := hlook 0 (by simp)
      simpa using hx
    have hs0 : e.seq = i := by
      have hx := hseq 0 (by simp)
      simpa using hx
    have ht0 : e.timestamp ≤ T := hts e (by simp)
    have hstep := ih (i + 1) (AppendToTree tree e)
      (fun j hj => by
        have hx := hlook (j + 1) (by simp only [List.length_cons]; omega)
        rw [show i + (j + 1) = i + 1 + j by omega] at hx
        simpa using hx)
      (fun j hj => by
        have hx := hseq (j + 1) (by simp only [List.length_cons]; omega)
        rw [show i + (j + 1) = i + 1 + j by omega] at hx
        simpa using hx)
      (fun e' he' => hts e' (List.mem_cons_of_mem e he'))
    have hred : replayExact db T (t.length + 1) tree i
        = replayExact db T t.length (AppendToTree tree e) (i + 1) := by
      simp [replayExact, h0, hs0, ht0]
    show replayExact db T (t.length + 1) tree i = _
    rw [hred, hstep]
    simp [AppendToTree, MerkleTree.AddLeaf]

theorem lookups_length_le (db : Database) (K : List LoggedEntry) (i : Nat)
    (hlook : ∀ j (hj : j < K.length), db.lookupByIndex (i + j) = some (K.get ⟨j, hj⟩)) :
    K.length ≤ db.entries.length := by
  classical
  have hmem : ∀ j, j < K.length → (i + j) ∈ db.entries.map Prod.fst := by
    intro j hj
    have h := hlook j hj
    unfold Database.lookupByIndex at h
    cases hf : db.entries.find? (fun p => p.1 == i + j) with
    | none => rw [hf] at h; cases h
    | some p =>
      have hp := List.find?_some hf
      have hpm := List.mem_of_find?_eq_some hf
      have hkey : p.1 = i + j := by simpa using hp
      exact hkey ▸ List.mem_map_of_mem Prod.fst hpm
  have hsub : (Finset.range K.length).image (fun j => i + j) ⊆
      (db.entries.map Prod.fst).toFinset := by
    intro x hx
    obtain ⟨j, hj, rfl⟩ := Finset.mem_image.mp hx
    exact List.mem_toFinset.mpr (hmem j (Finset.mem_range.mp hj))
  have hcard := Finset.card_le_card hsub
  rw [Finset.card_image_of_injective _ (fun a b hab => by omega)] at hcard
  rw [Finset.card_range] at hcard
  calc K.length ≤ (db.entries.map Prod.fst).toFinset.card := hcard
    _ ≤ (db.entries.map Prod.fst).length := List.toFinset_card_le _
    _ = db.entries.length := List.length_map _ _

theorem foldl_max_init (l : List Nat) : ∀ acc, acc ≤ l.foldl max acc := by
  induction l with
  | nil => intro acc; exact Nat.le_refl _
  | cons a t ih =>
    intro acc
    exact Nat.le_trans (Nat.le_max_left acc a) (ih (max acc a))

theorem foldl_max_mem (l : List Nat) : ∀ acc x, x ∈ l → x ≤ l.foldl max acc := by
  induction l with
  | nil => intro acc x hx; cases hx
  | cons a t ih =>
    intro acc x hx
    rcases List.mem_cons.mp hx with rfl | hx'
    · exact Nat.le_trans (Nat.le_max_right acc x) (foldl_max_init t _)
    · exact ih _ x hx'

theorem if_lt_max (a b : Nat) : (if a < b then b else a) = max a b := by
  split <;> omega

/-! ### Helper lemmas about TimestampAndSign -/

theorem timestampAndSign_some (now minTimestamp : Nat)
    (sign : Nat → Nat → Nat → Nat → Option Nat) (tree : MerkleTree)
    (sth : SignedTreeHead)
    (h : TimestampAndSign now minTimestamp sign tree = some sth) :
    sth.version = ctV1 ∧ sth.sha256_root_hash = tree.CurrentRoot ∧
    sth.tree_size = tree.LeafCount ∧ sth.timestamp = max now minTimestamp ∧
    sign ctV1 tree.CurrentRoot tree.LeafCount (max now minTimestamp) =
      some sth.signature := by
  unfold TimestampAndSign at h
  rw [if_lt_max] at h
  cases hs : sign ctV1 tree.CurrentRoot tree.LeafCount (max now minTimestamp) with
  | none =>
    rw [hs] at h
    have h' : (none : Option SignedTreeHead) = some sth := h
    cases h'
  | some sig =>
    rw [hs] at h
    have h' : some (⟨ctV1, tree.CurrentRoot, tree.LeafCount,
        max now minTimestamp, sig⟩ : SignedTreeHead) = some sth := h
    injection h' with h2
    subst h2
    exact ⟨rfl, rfl, rfl, rfl, rfl⟩

theorem timestampAndSign_none (now minTimestamp : Nat)
    (sign : Nat → Nat → Nat → Nat → Option Nat) (tree : MerkleTree)
    (h0 : sign ctV1 tree.CurrentRoot tree.LeafCount (max now minTimestamp) = none) :
    TimestampAndSign now minTimestamp sign tree = none := by
  unfold TimestampAndSign
  rw [if_lt_max, h0]

/-! ### Claim theorems -/

/-- C8: under the precondition that the entry's own sequence number equals
the accumulator's current leaf count, `Append` returns failure without
mutating the in-memory tree when the store reports a duplicate
sequence-number conflict (the returned tree — hence its leaf count and
root — is unchanged), and on store success it commits the entry and
appends the entry's leaf to the accumulator, returning success. -/
theorem C8_thm (db : Database) (tree : MerkleTree) (e : LoggedEntry)
    (h : e.seq = tree.LeafCount) :
    (db.hasIndex e.seq = true → Append db tree e = some (false, db, tree)) ∧
    (db.hasIndex e.seq = false →
      Append db tree e =
        some (true, ⟨db.entries ++ [(e.seq, e)], db.storedSth⟩,
          tree.AddLeaf (serializeForLeaf e))) := by
  constructor
  · intro h2
    have hc : db.createSequencedEntry e = .seqInUse := by
      unfold Database.createSequencedEntry
      rw [if_pos h2]
    unfold Append
    rw [if_pos h, hc]
  · intro h2
    have hc : db.createSequencedEntry e =
        .ok ⟨db.entries ++ [(e.seq, e)], db.storedSth⟩ := by
      unfold Database.createSequencedEntry
      rw [if_neg (by simp [h2])]
    unfold Append
    rw [if_pos h, hc]

/-- C8 witness: with an entry whose sequence number 0 equals the empty
accumulator's leaf count, a store already holding index 0 makes `Append`
report failure with tree and store untouched, and an empty store makes it
commit and append. -/
theorem C8_witness :
    Append W8db emptyTree W8entry = some (false, W8db, emptyTree) ∧
    Append emptyDb emptyTree W8entry =
      some (true, ⟨[(0, W8entry)], none⟩,
        emptyTree.AddLeaf (serializeForLeaf W8entry)) := by
  constructor
  · exact (C8_thm W8db emptyTree W8entry (by decide)).1 (by decide)
  · have h := (C8_thm emptyDb emptyTree W8entry (by decide)).2 (by decide)
    simpa [emptyDb, W8entry] using h

/-- C9: every head built by `TimestampAndSign(min_timestamp)` has the fixed
version `ctV1`, root equal to the accumulator's current root, tree size
equal to the accumulator's current leaf count, and timestamp
`max(now, min_timestamp)`; a failure of the signing primitive is fatal
(the call produces no head at all, modelling the `abort()`). -/
theorem C9_thm (now minTimestamp : Nat)
    (sign : Nat → Nat → Nat → Nat → Option Nat) (tree : MerkleTree) :
    (∀ sth, TimestampAndSign now minTimestamp sign tree = some sth →
      sth.version = ctV1 ∧ sth.sha256_root_hash = tree.CurrentRoot ∧
      sth.tree_size = tree.LeafCount ∧ sth.timestamp = max now minTimestamp ∧
      sign ctV1 tree.CurrentRoot tree.LeafCount (max now minTimestamp) =
        some sth.signature) ∧
    (sign ctV1 tree.CurrentRoot tree.LeafCount (max now minTimestamp) = none →
      TimestampAndSign now minTimestamp sign tree = none) := by
  exact ⟨fun sth h => timestampAndSign_some now minTimestamp sign tree sth h,
    fun h0 => timestampAndSign_none now minTimestamp sign tree h0⟩

/-- C9 witness: at `now = 10` with floor 20 over a one-leaf accumulator,
the succeeding signer yields the head with version `ctV1`, the
accumulator's root and size, and timestamp 20; the failing signer yields
no head. -/
theorem C9_witness :
    ((⟨0, Nat.pair 0 5, 1, 20, 0⟩ : SignedTreeHead).version = ctV1 ∧
      (⟨0, Nat.pair 0 5, 1, 20, 0⟩ : SignedTreeHead).sha256_root_hash =
        MerkleTree.CurrentRoot ⟨[5]⟩ ∧
      (⟨0, Nat.pair 0 5, 1, 20, 0⟩ : SignedTreeHead).tree_size =
        MerkleTree.LeafCount ⟨[5]⟩ ∧
      (⟨0, Nat.pair 0 5, 1, 20, 0⟩ : SignedTreeHead).timestamp = max 10 20 ∧
      signSome ctV1 (MerkleTree.CurrentRoot ⟨[5]⟩) (MerkleTree.LeafCount ⟨[5]⟩)
        (max 10 20) = some (⟨0, Nat.pair 0 5, 1, 20, 0⟩ : SignedTreeHead).signature) ∧
    TimestampAndSign 10 20 signNone ⟨[5]⟩ = none := by
  constructor
  · exact (C9_thm 10 20 signSome ⟨[5]⟩).1 ⟨0, Nat.pair 0 5, 1, 20, 0⟩ (by decide)
  · exact (C9_thm 10 20 signNone ⟨[5]⟩).2 (by decide)

/-- C10 counterexample: with a three-leaf accumulator whose previous head
records size 2 and root 999, and no committed entry at index 3,
`UpdateTree` succeeds yet the fresh head's size (3) and root are taken
from the accumulator, not from the previous head, falsifying the claim
that they equal the previous head's size and root. -/
theorem C10_counterexample :
    emptyDb.lookupByIndex C10tree.LeafCount = none ∧
    UpdateTree 100 signSome emptyDb C10tree C10latest =
      some (C10tree, ⟨0, 6044231, 3, 100, 0⟩) ∧
    C10latest.tree_size = 2 ∧
    ¬ ((⟨0, 6044231, 3, 100, 0⟩ : SignedTreeHead).tree_size = C10latest.tree_size) ∧
    ¬ ((⟨0, 6044231, 3, 100, 0⟩ : SignedTreeHead).sha256_root_hash =
      C10latest.sha256_root_hash) := by
  decide

/-- C10 (amended): every successful `UpdateTree` call with no committed
entry beyond the current accumulator leaf count signs a fresh head whose
tree size and root are the accumulator's current leaf count and root
(these coincide with the previous head's only when that head already
matched the accumulator), whose timestamp is strictly greater than the
previous head's (it equals `max(now, previous + 1)`), and the fresh head
replaces the in-memory latest head (it is the head the call returns). -/
theorem C10_amended_thm (now : Nat) (sign : Nat → Nat → Nat → Nat → Option Nat)
    (db : Database) (tree tree' : MerkleTree) (latest sth : SignedTreeHead)
    (hnone : db.lookupByIndex tree.LeafCount = none)
    (hrun : UpdateTree now sign db tree latest = some (tree', sth)) :
    tree' = tree ∧ sth.tree_size = tree.LeafCount ∧
    sth.sha256_root_hash = tree.CurrentRoot ∧
    latest.timestamp < sth.timestamp ∧
    sth.timestamp = max now (latest.timestamp + 1) := by
  obtain ⟨lv⟩ := tree
  have hrep := replayFrom_spec db [] (MerkleTree.LeafCount ⟨lv⟩) ⟨lv⟩
      (LastUpdateTime latest + 1) (db.entries.length + 1)
      (by intro j hj; simp at hj) (by intro j hj; simp at hj)
      (by simpa using hnone) (by simp)
  simp only [List.map_nil, List.append_nil, List.foldl_nil] at hrep
  unfold UpdateTree at hrun
  rw [hrep] at hrun
  have hrun2 : (match TimestampAndSign now (LastUpdateTime latest + 1) sign ⟨lv⟩ with
      | none => none
      | some sth2 => some ((⟨lv⟩ : MerkleTree), sth2)) = some (tree', sth) := hrun
  cases hts : TimestampAndSign now (LastUpdateTime latest + 1) sign ⟨lv⟩ with
  | none =>
    rw [hts] at hrun2
    have h' : (none : Option (MerkleTree × SignedTreeHead)) = some (tree', sth) := hrun2
    cases h'
  | some sth1 =>
    rw [hts] at hrun2
    have h' : some ((⟨lv⟩ : MerkleTree), sth1) = some (tree', sth) := hrun2
    injection h' with h2
    have htree : (⟨lv⟩ : MerkleTree) = tree' := congrArg Prod.fst h2
    have hsth : sth = sth1 := (congrArg Prod.snd h2).symm
    subst hsth
    obtain ⟨_, hroot, hsize, htsv, _⟩ :=
      timestampAndSign_some now (LastUpdateTime latest + 1) sign ⟨lv⟩ sth hts
    refine ⟨htree.symm, hsize, hroot, ?_, ?_⟩
    · have hmax := Nat.le_max_right now (latest.timestamp + 1)
      unfold LastUpdateTime at htsv
      omega
    · unfold LastUpdateTime at htsv
      exact htsv

/-- C10 witness: with no committed entry at the accumulator's leaf count 3,
the produced head keeps the accumulator unchanged, records size 3 and the
accumulator's root, and strictly advances the previous head's timestamp 50
to `max(100, 51) = 100`. -/
theorem C10_witness :
    C10tree = C10tree ∧
    (⟨0, 6044231, 3, 100, 0⟩ : SignedTreeHead).tree_size = C10tree.LeafCount ∧
    (⟨0, 6044231, 3, 100, 0⟩ : SignedTreeHead).sha256_root_hash =
      C10tree.CurrentRoot ∧
    C10latest.timestamp < (⟨0, 6044231, 3, 100, 0⟩ : SignedTreeHead).timestamp ∧
    (⟨0, 6044231, 3, 100, 0⟩ : SignedTreeHead).timestamp =
      max 100 (C10latest.timestamp + 1) := by
  exact C10_amended_thm 100 signSome emptyDb C10tree C10tree C10latest
    ⟨0, 6044231, 3, 100, 0⟩ (by decide) (by decide)

/-- C4: for one `UpdateTree` call replaying exactly the committed entries
`K` found from the current leaf count up to the first missing index, the
produced head's timestamp is at least the previous head's (the floor is
`max(previous + 1, max submission timestamp among the replayed entries)`),
and at least the submission timestamp of every entry appended during the
call. -/
theorem C4_thm (now : Nat) (sign : Nat → Nat → Nat → Nat → Option Nat)
    (db : Database) (tree tree' : MerkleTree) (latest sth : SignedTreeHead)
    (K : List LoggedEntry)
    (hlook : ∀ j (hj : j < K.length),
      db.lookupByIndex (tree.LeafCount + j) = some (K.get ⟨j, hj⟩))
    (hseq : ∀ j (hj : j < K.length), (K.get ⟨j, hj⟩).seq = tree.LeafCount + j)
    (hnone : db.lookupByIndex (tree.LeafCount + K.length) = none)
    (hrun : UpdateTree now sign db tree latest = some (tree', sth)) :
    latest.timestamp ≤ sth.timestamp ∧
    ∀ e ∈ K, e.timestamp ≤ sth.timestamp := by
  have hfuel : K.length < db.entries.length + 1 :=
    Nat.lt_succ_of_le (lookups_length_le db K tree.LeafCount hlook)
  have hrep := replayFrom_spec db K tree.LeafCount tree
      (LastUpdateTime latest + 1) (db.entries.length + 1) hlook hseq hnone hfuel
  unfold UpdateTree at hrun
  rw [hrep] at hrun
  have hrun2 : (match TimestampAndSign now
        ((K.map LoggedEntry.timestamp).foldl max (LastUpdateTime latest + 1)) sign
        ⟨tree.leaves ++ K.map serializeForLeaf⟩ with
      | none => none
      | some sth2 =>
        some ((⟨tree.leaves ++ K.map serializeForLeaf⟩ : MerkleTree), sth2)) =
      some (tree', sth) := hrun
  cases hts : TimestampAndSign now
      ((K.map LoggedEntry.timestamp).foldl max (LastUpdateTime latest + 1)) sign
      ⟨tree.leaves ++ K.map serializeForLeaf⟩ with
  | none =>
    rw [hts] at hrun2
    have h' : (none : Option (MerkleTree × SignedTreeHead)) = some (tree', sth) := hrun2
    cases h'
  | some sth1 =>
    rw [hts] at hrun2
    have h' : some ((⟨tree.leaves ++ K.map serializeForLeaf⟩ : MerkleTree), sth1) =
        some (tree', sth) := hrun2
    injection h' with h2
    have hsth : sth = sth1 := (congrArg Prod.snd h2).symm
    subst hsth
    obtain ⟨_, _, _, htsv, _⟩ := timestampAndSign_some now
      ((K.map LoggedEntry.timestamp).foldl max (LastUpdateTime latest + 1)) sign
      ⟨tree.leaves ++ K.map serializeForLeaf⟩ sth hts
    unfold LastUpdateTime at htsv
    have hfloor : latest.timestamp + 1 ≤
        (K.map LoggedEntry.timestamp).foldl max (latest.timestamp + 1) :=
      foldl_max_init _ _
    have hmax := Nat.le_max_right now
      ((K.map LoggedEntry.timestamp).foldl max (latest.timestamp + 1))
    constructor
    · omega
    · intro e he
      have hememb : e.timestamp ∈ K.map LoggedEntry.timestamp :=
        List.mem_map_of_mem LoggedEntry.timestamp he
      have hmem2 := foldl_max_mem (K.map LoggedEntry.timestamp)
        (latest.timestamp + 1) e.timestamp hememb
      omega

/-- C4 witness: replaying the single committed entry (timestamp 40) at
index 0 from an empty accumulator with previous head timestamp 50 at time
100 yields a head timestamped 100, at least 50 and at least 40. -/
theorem C4_witness :
    W4latest.timestamp ≤ (100 : Nat) ∧
    ∀ e ∈ [W4entry], e.timestamp ≤ (100 : Nat) := by
  have h := C4_thm 100 signSome W4db emptyTree ⟨[serializeForLeaf W4entry]⟩
    W4latest ⟨0, Nat.pair 0 (Nat.pair 3 40), 1, 100, 0⟩ [W4entry]
    (by
      intro j hj
      have hj0 : j = 0 := by simpa using Nat.lt_one_iff.mp (by simpa using hj)
      subst hj0
      rfl)
    (by
      intro j hj
      have hj0 : j = 0 := by simpa using Nat.lt_one_iff.mp (by simpa using hj)
      subst hj0
      rfl)
    (by decide) (by decide)
  exact h

/-- C3 counterexample: a store whose head (timestamp 100, size 1) is not
from the future at `now = 300`, whose single committed entry records its
own index 0, and whose replay reproduces the stored root, still aborts
recovery fatally — the entry's own timestamp (200) exceeds the stored
head's, tripping the per-entry timestamp check the claim omits. -/
theorem C3_counterexample :
    C3sth.timestamp ≤ 300 ∧
    C3db.lookupByIndex 0 = some C3entry ∧
    C3entry.seq = 0 ∧
    MerkleTree.CurrentRoot ⟨[serializeForLeaf C3entry]⟩ = C3sth.sha256_root_hash ∧
    BuildTree 300 C3db = none := by
  decide

/-- C3 (amended): given a stored head whose timestamp is not in the future,
entries at `[0, tree_size)` that record their own index, have timestamps
at most the stored head's, and replay to the stored root, and further
committed entries (from `tree_size` up to the first missing index) that
record their own index, recovery succeeds without any fatal check: it
rebuilds exactly those leaves (the covered ones, then every further one),
adopts the stored head as latest, and involves no signing at all. -/
theorem C3_amended_thm (now : Nat) (db : Database) (sth : SignedTreeHead)
    (L K : List LoggedEntry)
    (hsth : db.storedSth = some sth)
    (hnow : sth.timestamp ≤ now)
    (hlen : L.length = sth.tree_size)
    (hlookL : ∀ j (hj : j < L.length), db.lookupByIndex j = some (L.get ⟨j, hj⟩))
    (hseqL : ∀ j (hj : j < L.length), (L.get ⟨j, hj⟩).seq = j)
    (htsL : ∀ e ∈ L, e.timestamp ≤ sth.timestamp)
    (hroot : MerkleTree.CurrentRoot ⟨L.map serializeForLeaf⟩ = sth.sha256_root_hash)
    (hlookK : ∀ j (hj : j < K.length),
      db.lookupByIndex (sth.tree_size + j) = some (K.get ⟨j, hj⟩))
    (hseqK : ∀ j (hj : j < K.length), (K.get ⟨j, hj⟩).seq = sth.tree_size + j)
    (hnoneK : db.lookupByIndex (sth.tree_size + K.length) = none) :
    BuildTree now db = some (⟨(L ++ K).map serializeForLeaf⟩, some sth) := by
  have hrepL : replayExact db sth.timestamp sth.tree_size emptyTree 0 =
      some ⟨L.map serializeForLeaf⟩ := by
    rw [← hlen]
    have h := replayExact_spec db sth.timestamp L 0 emptyTree
      (by intro j hj; have hx := hlookL j hj; simpa using hx)
      (by intro j hj; have hx := hseqL j hj; simpa using hx)
      htsL
    simpa [emptyTree] using h
  have hfuel : K.length < db.entries.length + 1 :=
    Nat.lt_succ_of_le (lookups_length_le db K sth.tree_size hlookK)
  have hrepK : replayFrom db (db.entries.length + 1) ⟨L.map serializeForLeaf⟩ 0
      sth.tree_size =
      some (⟨(L ++ K).map serializeForLeaf⟩,
        (K.map LoggedEntry.timestamp).foldl max 0) := by
    have h := replayFrom_spec db K sth.tree_size ⟨L.map serializeForLeaf⟩ 0
      (db.entries.length + 1) hlookK hseqK hnoneK hfuel
    simpa [List.map_append] using h
  unfold BuildTree
  rw [hsth]
  have hgoal : (if sth.timestamp ≤ now then
      match replayExact db sth.timestamp sth.tree_size emptyTree 0 with
      | none => none
      | some tree =>
        if tree.CurrentRoot = sth.sha256_root_hash then
          match replayFrom db (db.entries.length + 1) tree 0 sth.tree_size with
          | none => none
          | some (tree', _) => some (tree', some sth)
        else none
      else none) = some (⟨(L ++ K).map serializeForLeaf⟩, some sth) := by
    rw [if_pos hnow, hrepL]
    have hgoal2 : (if (⟨L.map serializeForLeaf⟩ : MerkleTree).CurrentRoot =
        sth.sha256_root_hash then
        match replayFrom db (db.entries.length + 1) ⟨L.map serializeForLeaf⟩ 0
            sth.tree_size with
        | none => none
        | some (tree', _) => some (tree', some sth)
        else none) = some (⟨(L ++ K).map serializeForLeaf⟩, some sth) := by
      rw [if_pos hroot, hrepK]
    exact hgoal2
  exact hgoal

/-- C3 witness: a store with committed indices 0 and 1 and a stored head
of size 1 recovers to the two-leaf accumulator with the stored head as
latest, admitting the extra index-1 entry without error. -/
theorem C3_witness :
    BuildTree 300 W3db = some (⟨([W3L0] ++ [W3K0]).map serializeForLeaf⟩, some W3sth) := by
  refine C3_amended_thm 300 W3db W3sth [W3L0] [W3K0] rfl (by decide) (by decide)
    ?_ ?_ (by decide) (by decide) ?_ ?_ (by decide)
  · intro j hj
    have hj0 : j = 0 := by simpa using Nat.lt_one_iff.mp (by simpa using hj)
    subst hj0
    rfl
  · intro j hj
    have hj0 : j = 0 := by simpa using Nat.lt_one_iff.mp (by simpa using hj)
    subst hj0
    rfl
  · intro j hj
    have hj0 : j = 0 := by simpa using Nat.lt_one_iff.mp (by simpa using hj)
    subst hj0
    rfl
  · intro j hj
    have hj0 : j = 0 := by simpa using Nat.lt_one_iff.mp (by simpa using hj)
    subst hj0
    rfl

/-- C7: `SequenceNewEntries` processes pending entries in the order given
by sorting with timestamp ascending and hash ascending as the tie-break
for equal timestamps — `sortPending` always yields a list ordered by that
relation and is a permutation of the pending set (hence the order is a
deterministic function of the set); in the scenario with `h1` at t = 100
and `h2` at t = 50 under guard window 0, `h2` receives sequence number 0
and `h1` receives sequence number 1. -/
theorem C7_thm :
    (∀ P : List LoggedEntry,
      (sortPending P).Pairwise (fun x y => pendingLE x y = true) ∧
      List.Perm (sortPending P) P) ∧
    SequenceNewEntries 1000 0 C7cs emptyDb =
      (.ok [⟨2, 0⟩, ⟨1, 1⟩] [(0, ⟨2, 50, 0⟩), (1, ⟨1, 100, 1⟩)],
        ⟨[(0, ⟨2, 50, 0⟩), (1, ⟨1, 100, 1⟩)], none⟩) := by
  refine ⟨fun P => ⟨sortPending_pairwise P, sortPending_perm P⟩, ?_⟩
  decide

/-- C6: when `SequenceNewEntries` fails at any step up to and including
the mapping write-back — allocator failure, mapping read failure,
pending-entry read failure, or mapping write failure — the error code is
returned to the caller unmodified and the Local Log Store is exactly as it
was: nothing has been committed during the call. -/
theorem C6_thm (now guard : Nat) (cs : ConsistentStore) (db : Database) (s : Nat) :
    (cs.nextAvailableSequenceNumber = .error s →
      SequenceNewEntries now guard cs db = (.err s, db)) ∧
    (∀ n, cs.nextAvailableSequenceNumber = .ok n →
      cs.sequenceMapping = .error s →
      SequenceNewEntries now guard cs db = (.err s, db)) ∧
    (∀ n M, cs.nextAvailableSequenceNumber = .ok n →
      cs.sequenceMapping = .ok M →
      nodupKeysB (M.map SeqMapping.entry_hash) = true →
      cs.pendingEntries = .error s →
      SequenceNewEntries now guard cs db = (.err s, db)) ∧
    (∀ n M P st, cs.nextAvailableSequenceNumber = .ok n →
      cs.sequenceMapping = .ok M →
      nodupKeysB (M.map SeqMapping.entry_hash) = true →
      cs.pendingEntries = .ok P →
      processPending now guard M ⟨M, n, [], 0⟩ (sortPending P) = some st →
      cs.updateMappingError = some s →
      SequenceNewEntries now guard cs db = (.err s, db)) := by
  refine ⟨?_, ?_, ?_, ?_⟩
  · intro h1
    unfold SequenceNewEntries
    rw [h1]
  · intro n h1 h2
    simp only [SequenceNewEntries, h1, h2]
  · intro n M h1 h2 hnd h3
    simp only [SequenceNewEntries, h1, h2, hnd, if_true, h3]
  · intro n M P st h1 h2 hnd h3 h4 h5
    simp only [SequenceNewEntries, h1, h2, hnd, if_true, h3, h4, h5]

/-- C6 witness: with error code 7 injected at each of the four steps in
turn, the call returns exactly that code and leaves the empty store
unchanged. -/
theorem C6_witness :
    SequenceNewEntries 0 0 W6a emptyDb = (.err 7, emptyDb) ∧
    SequenceNewEntries 0 0 W6b emptyDb = (.err 7, emptyDb) ∧
    SequenceNewEntries 0 0 W6c emptyDb = (.err 7, emptyDb) ∧
    SequenceNewEntries 0 0 W6d emptyDb = (.err 7, emptyDb) := by
  refine ⟨?_, ?_, ?_, ?_⟩
  · exact (C6_thm 0 0 W6a emptyDb 7).1 rfl
  · exact (C6_thm 0 0 W6b emptyDb 7).2.1 0 rfl rfl
  · exact (C6_thm 0 0 W6c emptyDb 7).2.2.1 0 [] rfl rfl rfl rfl
  · exact (C6_thm 0 0 W6d emptyDb 7).2.2.2 0 [] [] ⟨[], 0, [], 0⟩ rfl rfl rfl rfl rfl rfl

/-- C1 counterexample: with store size 1 and a mapping assigning numbers 1
and 3 (number 2 belonging to a hash no longer pending), a successful
`SequenceNewEntries` call commits the entry numbered 3 even though that
leaves a gap at 2: the committed index set afterwards is {0, 1, 3}, not
`[0, N)`. -/
theorem C1_counterexample :
    (SequenceNewEntries 1000 0 C1cs C1db).1 =
      .ok [⟨10, 1⟩, ⟨11, 3⟩] [(1, ⟨10, 0, 1⟩), (3, ⟨11, 0, 3⟩)] ∧
    C1db.TreeSize = 1 ∧
    (SequenceNewEntries 1000 0 C1cs C1db).2.hasIndex 3 = true ∧
    (SequenceNewEntries 1000 0 C1cs C1db).2.hasIndex 2 = false := by
  decide

/-- C1 (amended): in a successful `SequenceNewEntries` call over a store
whose committed set is exactly `[0, TreeSize)`, no entry is ever committed
below the store's current size, and commitment starts only at the store's
current size; gaps are only guarded against at that starting point, so
whenever the assigned sequence numbers at or above the store's size form
exactly the contiguous range `[TreeSize, TreeSize + m)`, the committed
index set after the call is exactly `[0, TreeSize + m)`. -/
theorem C1_amended_thm (now guard : Nat) (cs : ConsistentStore) (db db' : Database)
    (m' : List SeqMapping) (a : List (Nat × LoggedEntry)) (m : Nat)
    (hrun : SequenceNewEntries now guard cs db = (.ok m' a, db'))
    (hcontig : ∀ i, db.hasIndex i = decide (i < db.TreeSize))
    (hkeysU : ∀ p ∈ a, db.TreeSize ≤ p.1 → p.1 < db.TreeSize + m)
    (hkeysL : ∀ j, db.TreeSize ≤ j → j < db.TreeSize + m → ∃ e, (j, e) ∈ a) :
    (∀ p ∈ db'.entries, p ∈ db.entries ∨ db.TreeSize ≤ p.1) ∧
    (∀ i, db'.hasIndex i = decide (i < db.TreeSize + m)) := by
  obtain ⟨n, M, P, st, h1, h2, hnd, h3, h4, h5, h6, hm, ha⟩ :=
    seqOk_inv now guard cs db db' m' a hrun
  rw [ha] at hkeysU hkeysL
  have hentries := (commitEntries_app _ _ _ h6).1
  constructor
  · intro p hp
    rw [hentries] at hp
    rcases List.mem_append.mp hp with hp' | hp'
    · exact Or.inl hp'
    · exact Or.inr (commitFrom_sub _ _ _ hp').2
  · intro i
    rw [hasIndex_eq_any db' i, hentries, List.any_append,
      show db.entries.any (fun p => p.1 == i) = db.hasIndex i from
        (hasIndex_eq_any db i).symm, hcontig i]
    by_cases hi : i < db.TreeSize
    · simp [hi, show i < db.TreeSize + m by omega]
    · by_cases hi2 : i < db.TreeSize + m
      · have hm1 : db.TreeSize < db.TreeSize + m := by omega
        obtain ⟨e0, he0⟩ := hkeysL db.TreeSize (Nat.le_refl _) hm1
        have hts_any : st.seqToEntry.any (fun q => q.1 == db.TreeSize) = true :=
          List.any_eq_true.mpr ⟨(db.TreeSize, e0), he0, by simp⟩
        obtain ⟨e, he⟩ := hkeysL i (by omega) hi2
        have hLmem : (i, e) ∈ commitFrom db.TreeSize st.seqToEntry :=
          commitFrom_mem_of db.TreeSize _ (i, e) hts_any he (by simp; omega)
        have hany : (commitFrom db.TreeSize st.seqToEntry).any
            (fun p => p.1 == i) = true :=
          List.any_eq_true.mpr ⟨(i, e), hLmem, by simp⟩
        simp [hi, hi2, hany]
      · have hany : (commitFrom db.TreeSize st.seqToEntry).any
            (fun p => p.1 == i) = false := by
          cases hval : (commitFrom db.TreeSize st.seqToEntry).any
              (fun p => p.1 == i) with
          | false => rfl
          | true =>
            exfalso
            obtain ⟨p, hp, hpe⟩ := List.any_eq_true.mp hval
            have hsub := commitFrom_sub _ _ _ hp
            have hpi : p.1 = i := by simpa using hpe
            have hup := hkeysU p hsub.1 hsub.2
            omega
        simp [hi, hi2, hany]

/-- C1 witness: one fresh pending entry over an empty store is assigned
number 0 and committed, and with store size 0 and contiguous assigned
range `[0, 1)` the committed set afterwards is exactly `[0, 1)`. -/
theorem C1_witness :
    (⟨[(0, (⟨1, 0, 0⟩ : LoggedEntry))], none⟩ : Database).hasIndex 0 =
      decide ((0 : Nat) < emptyDb.TreeSize + 1) ∧
    (⟨[(0, (⟨1, 0, 0⟩ : LoggedEntry))], none⟩ : Database).hasIndex 1 =
      decide ((1 : Nat) < emptyDb.TreeSize + 1) := by
  have h := C1_amended_thm 1000 0 W1cs emptyDb ⟨[(0, ⟨1, 0, 0⟩)], none⟩
    [⟨1, 0⟩] [(0, ⟨1, 0, 0⟩)] 1
    (by decide)
    (by
      intro i
      have hnl : ¬ i < 0 := by omega
      simp [emptyDb, Database.hasIndex, Database.lookupByIndex, Database.TreeSize,
        Database.treeSizeLoop, hnl])
    (by
      intro p hp hge
      have h0 : emptyDb.TreeSize = 0 := rfl
      simp only [List.mem_singleton] at hp
      subst hp
      simp [h0])
    (by
      intro j hj1 hj2
      have h0 : emptyDb.TreeSize = 0 := rfl
      rw [h0] at hj1 hj2
      have hj0 : j = 0 := by omega
      subst hj0
      exact ⟨⟨1, 0, 0⟩, by simp⟩)
  exact ⟨h.2 0, h.2 1⟩

/-- C2: once the hash-to-number pair `(H, S)` is in the Sequence Mapping a
`SequenceNewEntries` call reads, and a pending entry with hash H (past the
guard window) is processed in a successful call, that entry is assigned
the existing number S (never a fresh one): `(S, H-entry)` is in the
`seq_to_entry` assignment, every assignment carrying hash H carries exactly
S, and every entry with hash H committed during the call sits at index S. -/
theorem C2_thm (now guard : Nat) (cs : ConsistentStore) (db db' : Database)
    (m' : List SeqMapping) (a : List (Nat × LoggedEntry))
    (M : List SeqMapping) (P : List LoggedEntry) (H S : Nat) (e : LoggedEntry)
    (hrun : SequenceNewEntries now guard cs db = (.ok m' a, db'))
    (hM : cs.sequenceMapping = .ok M)
    (hP : cs.pendingEntries = .ok P)
    (hmem : (⟨H, S⟩ : SeqMapping) ∈ M)
    (he : e ∈ P) (hh : e.hash = H)
    (hage : tooRecent now guard e = false) :
    (S, setSequenceNumber e S) ∈ a ∧
    (∀ p ∈ a, (p.2).hash = H → p.1 = S) ∧
    (∀ p ∈ db'.entries, (p.2).hash = H → p ∈ db.entries ∨ p.1 = S) := by
  obtain ⟨n, M0, P0, st, h1, h2, hnd, h3, h4, h5, h6, hm, ha⟩ :=
    seqOk_inv now guard cs db db' m' a hrun
  rw [hM] at h2
  injection h2 with h2'
  subst h2'
  rw [hP] at h3
  injection h3 with h3'
  subst h3'
  have hfind : findSequenced M H = some S := findSequenced_of_mem M H S hnd hmem
  have hkey : ∀ p ∈ st.seqToEntry, (p.2).hash = H → p.1 = S :=
    processPending_hash_key now guard M H S hfind (sortPending P) ⟨M, n, [], 0⟩ st h4
      (by intro p hp hph; simp at hp)
  obtain ⟨k, hk_mem, hk_eq⟩ :=
    processPending_assigns now guard M (sortPending P) ⟨M, n, [], 0⟩ st h4 e
      ((sortPending_perm P).mem_iff.mpr he) hage
  have hkS : k = S := hk_eq S (by rw [hh]; exact hfind)
  rw [hkS] at hk_mem
  have hentries := (commitEntries_app _ _ _ h6).1
  refine ⟨?_, ?_, ?_⟩
  · rw [ha]
    exact hk_mem
  · intro p hp hph
    rw [ha] at hp
    exact hkey p hp hph
  · intro p hp hph
    rw [hentries] at hp
    rcases List.mem_append.mp hp with hp' | hp'
    · exact Or.inl hp'
    · exact Or.inr (hkey p (commitFrom_sub _ _ _ hp').1 hph)

/-- C2 witness: with the mapping `{9 ↦ 5}` and one old-enough pending
entry of hash 9, the assignment contains exactly `(5, entry-with-seq-5)`,
and every assignment with hash 9 carries number 5. -/
theorem C2_witness :
    ((5 : Nat), setSequenceNumber ⟨9, 0, 0⟩ 5) ∈
      [((5 : Nat), (⟨9, 0, 5⟩ : LoggedEntry))] ∧ (5 : Nat) = 5 := by
  have h := C2_thm 1000 0 W2cs emptyDb emptyDb [⟨9, 5⟩] [(5, ⟨9, 0, 5⟩)]
    [⟨9, 5⟩] [⟨9, 0, 0⟩] 9 5 ⟨9, 0, 0⟩ (by decide) rfl rfl (by decide)
    (by decide) rfl (by decide)
  exact ⟨h.1, h.2.1 (5, ⟨9, 0, 5⟩) (by simp) rfl⟩

/-- C5: in a successful `SequenceNewEntries` round, a pending entry whose
age is strictly below the guard window is never assigned a sequence number
nor committed during that call; a round where every pending entry is too
recent still succeeds (the skip is not an error) leaving the mapping and
store unchanged; and a pending entry whose age is at or beyond the guard
window is eligible: it gets a sequence number in that round. -/
theorem C5_thm (now guard : Nat) (cs : ConsistentStore) (db : Database)
    (P : List LoggedEntry) (hP : cs.pendingEntries = .ok P) :
    (∀ db' m' a e, SequenceNewEntries now guard cs db = (.ok m' a, db') →
      e ∈ P → tooRecent now guard e = true →
      (∀ k, (k, setSequenceNumber e k) ∉ a) ∧
      (∀ p ∈ db'.entries, p.2 = setSequenceNumber e p.1 → p ∈ db.entries)) ∧
    (∀ n M, cs.nextAvailableSequenceNumber = .ok n →
      cs.sequenceMapping = .ok M →
      nodupKeysB (M.map SeqMapping.entry_hash) = true →
      cs.updateMappingError = none →
      (∀ e ∈ P, tooRecent now guard e = true) →
      SequenceNewEntries now guard cs db = (.ok M [], db)) ∧
    (∀ db' m' a e, SequenceNewEntries now guard cs db = (.ok m' a, db') →
      e ∈ P → tooRecent now guard e = false →
      ∃ k, (k, setSequenceNumber e k) ∈ a) := by
  refine ⟨?_, ?_, ?_⟩
  · intro db' m' a e hrun he hrec
    obtain ⟨n, M0, P0, st, h1, h2, hnd, h3, h4, h5, h6, hm, ha⟩ :=
      seqOk_inv now guard cs db db' m' a hrun
    rw [hP] at h3
    injection h3 with h3'
    subst h3'
    have hguard := processPending_guarded now guard M0 e hrec (sortPending P)
      ⟨M0, n, [], 0⟩ st h4 (by intro k hk; simp at hk)
    constructor
    · intro k
      rw [ha]
      exact hguard k
    · intro p hp hpe
      have hentries := (commitEntries_app _ _ _ h6).1
      rw [hentries] at hp
      rcases List.mem_append.mp hp with hp' | hp'
      · exact hp'
      · exfalso
        obtain ⟨k0, e0⟩ := p
        have hpe2 : e0 = setSequenceNumber e k0 := hpe
        subst hpe2
        exact hguard k0 (commitFrom_sub _ _ _ hp').1
  · intro n M h1 h2 hnd hupd hall
    have hproc : processPending now guard M ⟨M, n, [], 0⟩ (sortPending P) =
        some ⟨M, n, [], 0⟩ :=
      processPending_all_guarded now guard M (sortPending P) ⟨M, n, [], 0⟩
        (fun e he => hall e ((sortPending_perm P).mem_iff.mp he))
    simp only [SequenceNewEntries, h1, h2, hnd, if_true, hP, hproc, hupd]
    rfl
  · intro db' m' a e hrun he hrec
    obtain ⟨n, M0, P0, st, h1, h2, hnd, h3, h4, h5, h6, hm, ha⟩ :=
      seqOk_inv now guard cs db db' m' a hrun
    rw [hP] at h3
    injection h3 with h3'
    subst h3'
    obtain ⟨k, hk_mem, _⟩ :=
      processPending_assigns now guard M0 (sortPending P) ⟨M0, n, [], 0⟩ st h4 e
        ((sortPending_perm P).mem_iff.mpr he) hrec
    exact ⟨k, by rw [ha]; exact hk_mem⟩

/-- C5 witness: at time 100 with guard window 10, the 5 ms old entry gets
no assignment in the successful round (and a round of only too-recent
entries returns success with nothing sequenced and the store unchanged),
while the 50 ms old entry is assigned number 0. -/
theorem C5_witness :
    ((0 : Nat), setSequenceNumber W5young 0) ∉
      [((0 : Nat), (⟨2, 50, 0⟩ : LoggedEntry))] ∧
    SequenceNewEntries 100 10 W5cs2 emptyDb = (.ok [] [], emptyDb) ∧
    ((0 : Nat), setSequenceNumber W5old 0) ∈
      [((0 : Nat), (⟨2, 50, 0⟩ : LoggedEntry))] := by
  have h := C5_thm 100 10 W5cs emptyDb [W5young, W5old] rfl
  refine ⟨?_, ?_, ?_⟩
  · exact (h.1 ⟨[(0, ⟨2, 50, 0⟩)], none⟩ [⟨2, 0⟩] [(0, ⟨2, 50, 0⟩)] W5young
      (by decide) (by decide) (by decide)).1 0
  · exact (C5_thm 100 10 W5cs2 emptyDb [W5young] rfl).2.1 0 [] rfl rfl rfl rfl
      (by decide)
  · obtain ⟨k, hk⟩ := h.2.2 ⟨[(0, ⟨2, 50, 0⟩)], none⟩ [⟨2, 0⟩] [(0, ⟨2, 50, 0⟩)]
      W5old (by decide) (by decide) (by decide)
    have heq := List.mem_singleton.mp hk
    have hk0 : k = 0 := congrArg Prod.fst heq
    rw [hk0] at hk
    exact hk

end CertTrans